import Mathlib

/-!
Verification development for the Uni repository (a browser dashboard with a
realtime voice channel). The definitions below are shallow embeddings of the
audio codec helpers and insight fallback handling in src/unnamed/part_001 and
of the live-session state handling in src/App.tsx. Machine integers are
modelled as Nat and Int with explicit truncation and wraparound; audio sample
values and device clock times are modelled as rationals (every float value the
browser produces is a rational, and the only arithmetic the code performs on
them, multiplication and division by 32768, is exact in binary floating
point).
-/

namespace Uni

/-! ## Base64 codec, from src/unnamed/part_001 lines 56 to 73.

The source builds a byte string with String.fromCharCode and calls the btoa
builtin; decoding calls atob and reads the bytes back with charCodeAt. Since
fromCharCode and charCodeAt are mutually inverse maps between byte values and
one-character code points, the composition acts directly on the list of byte
values; btoa and atob are the standard RFC 4648 base64 encoder and decoder
with padding, modelled here over that list. -/

def b64Alphabet : List Char :=
  ("ABCDEFGHIJKLMNOPQRSTUVWXYZabcdefghijklmnopqrstuvwxyz0123456789+/").toList

def b64Char (n : Nat) : Char :=
  b64Alphabet.getD n '?'

def b64Index (c : Char) : Nat :=
  b64Alphabet.findIdx (fun x => x == c)

/-- Model of `encode` (src/unnamed/part_001 lines 66 to 73): byte list to
base64 text, three bytes per four output characters, padded with equality
signs. -/
def encode : List Nat → List Char
  | [] => []
  | [a] => [b64Char (a / 4), b64Char (a % 4 * 16), '=', '=']
  | [a, b] => [b64Char (a / 4), b64Char (a % 4 * 16 + b / 16), b64Char (b % 16 * 4), '=']
  | a :: b :: c :: rest =>
      b64Char (a / 4) :: b64Char (a % 4 * 16 + b / 16) :: b64Char (b % 16 * 4 + c / 64)
        :: b64Char (c % 64) :: encode rest

/-- Model of `decode` (src/unnamed/part_001 lines 56 to 64): base64 text to
byte list, four characters per group, trailing padding marking a short
group. -/
def decode : List Char → List Nat
  | c0 :: c1 :: c2 :: c3 :: rest =>
      if c2 = '=' then
        [b64Index c0 * 4 + b64Index c1 / 16]
      else if c3 = '=' then
        [b64Index c0 * 4 + b64Index c1 / 16, b64Index c1 % 16 * 16 + b64Index c2 / 4]
      else
        (b64Index c0 * 4 + b64Index c1 / 16)
          :: (b64Index c1 % 16 * 16 + b64Index c2 / 4)
          :: (b64Index c2 % 4 * 64 + b64Index c3)
          :: decode rest
  | _ => []

/-- Induction principle matching the three-byte grouping of `encode`. -/
def chunk3Ind {P : List Nat → Prop} (nil : P []) (one : ∀ a, P [a]) (two : ∀ a b, P [a, b])
    (grp : ∀ a b c rest, P rest → P (a :: b :: c :: rest)) : ∀ l, P l
  | [] => nil
  | [a] => one a
  | [a, b] => two a b
  | a :: b :: c :: rest => grp a b c rest (chunk3Ind nil one two grp rest)

/-! ## PCM16 conversion.

Capture side (src/App.tsx line 201): `int16[i] = inputData[i] * 32768` stores
a float into an Int16Array slot; the ECMAScript ToInt16 conversion truncates
the float toward zero and wraps the integer into the signed 16 bit range.
Playback side (src/unnamed/part_001 lines 75 to 92): `decodeAudioData`
reinterprets the byte buffer as little endian signed 16 bit integers,
de-interleaves by channel and divides each sample by 32768. -/

/-- Truncation toward zero of a rational, the integer part ECMAScript
ToIntegerOrInfinity produces for a finite float. -/
def ratTrunc (q : ℚ) : ℤ :=
  if 0 ≤ q then ⌊q⌋ else ⌈q⌉

/-- ECMAScript ToInt16 on a finite float value: truncate toward zero, then
wrap modulo 2 to the 16 into the range -32768 to 32767. -/
def toInt16 (q : ℚ) : ℤ :=
  if 32768 ≤ ratTrunc q % 65536 then ratTrunc q % 65536 - 65536 else ratTrunc q % 65536

/-- The per-sample capture conversion `int16[i] = inputData[i] * 32768`
(src/App.tsx line 201). -/
def sampleToPCM16 (s : ℚ) : ℤ :=
  toInt16 (s * 32768)

/-- Reading an Int16Array buffer as a Uint8Array (src/App.tsx line 204):
each 16 bit sample becomes two bytes, little endian. -/
def int16LEBytes : List ℤ → List Nat
  | [] => []
  | v :: rest => ((v % 65536).toNat % 256) :: ((v % 65536).toNat / 256) :: int16LEBytes rest

/-- The full capture-side conversion of a float sample block to PCM16 bytes
(src/App.tsx lines 198 to 204). -/
def samplesToPCM16 (s : List ℚ) : List Nat :=
  int16LEBytes (s.map sampleToPCM16)

/-- `new Int16Array(data.buffer)` (src/unnamed/part_001 line 81): reinterpret
bytes pairwise as little endian signed 16 bit integers. -/
def bytesToInt16 : List Nat → List ℤ
  | lo :: hi :: rest =>
      (if 32768 ≤ lo + 256 * hi then (lo + 256 * hi : ℤ) - 65536 else (lo + 256 * hi : ℤ))
        :: bytesToInt16 rest
  | _ => []

/-- Model of `decodeAudioData` (src/unnamed/part_001 lines 75 to 92): one
sample list per channel, `channelData[i] = dataInt16[i * numChannels +
channel] / 32768.0`. -/
def decodeAudioData (data : List Nat) (numChannels : Nat) : List (List ℚ) :=
  let dataInt16 := bytesToInt16 data
  let frameCount := dataInt16.length / numChannels
  (List.range numChannels).map (fun channel =>
    (List.range frameCount).map (fun i =>
      ((dataInt16.getD (i * numChannels + channel) 0 : ℤ) : ℚ) / 32768))

/-! ## Playback scheduler, from src/App.tsx lines 215 to 227.

On each inbound audio chunk the handler runs
`nextStartTimeRef.current = Math.max(nextStartTimeRef.current,
outCtx.currentTime); source.start(nextStartTimeRef.current);
nextStartTimeRef.current += buffer.duration;`. A chunk is modelled by the
output device clock value observed when it is scheduled and by the duration of
its decoded buffer; `schedule` returns, per chunk, the start time passed to
`source.start` and the cursor value after the advance. -/

structure Chunk where
  time : ℚ
  dur : ℚ

def schedule : ℚ → List Chunk → List (ℚ × ℚ)
  | _, [] => []
  | c, ch :: rest =>
      (max c ch.time, max c ch.time + ch.dur) :: schedule (max c ch.time + ch.dur) rest

/-- The chunk durations of the spec scenario, 0.5 s, 0.3 s and 0.7 s, with
arbitrary nonnegative device clock values. -/
def demoChunks : List Chunk :=
  [⟨0, 1 / 2⟩, ⟨2, 3 / 10⟩, ⟨1, 7 / 10⟩]

/-! ## Live-session component state, from src/App.tsx.

The component keeps `isLiveActive` state plus the refs `nextStartTimeRef`,
`sourcesRef`, `inputCtxRef` and `audioContextRef` (lines 85 to 91); these are
created once per component mount, not per session. `toggleLiveReporting`
(lines 168 to 257) either runs the stop branch (when `isLiveActive` is true:
clear the flag, close both contexts, touch nothing else) or the start branch
(allocate a fresh input and output context and issue one `ai.live.connect`
call; `isLiveActive` stays false until the `onopen` callback fires). The
counters record how many sessions and device contexts have ever been
allocated, so duplicate allocation is visible. -/

structure AppRefs where
  isLiveActive : Bool
  nextStartTime : ℚ
  sources : List Nat
  sessionsCreated : Nat
  inCtxAllocs : Nat
  outCtxAllocs : Nat

def initialRefs : AppRefs :=
  ⟨false, 0, [], 0, 0, 0⟩

/-- One invocation of `toggleLiveReporting` (src/App.tsx lines 168 to 257). -/
def toggleLiveReporting (st : AppRefs) : AppRefs :=
  match st.isLiveActive with
  | true => { st with isLiveActive := false }
  | false =>
      { st with
          sessionsCreated := st.sessionsCreated + 1
          inCtxAllocs := st.inCtxAllocs + 1
          outCtxAllocs := st.outCtxAllocs + 1 }

/-- The `onopen` callback effect on the refs (src/App.tsx line 191). -/
def onopenCb (st : AppRefs) : AppRefs :=
  { st with isLiveActive := true }

/-- The start time `Math.max(nextStartTimeRef.current, outCtx.currentTime)`
computed for a chunk (src/App.tsx line 222). -/
def chunkStart (st : AppRefs) (deviceTime : ℚ) : ℚ :=
  max st.nextStartTime deviceTime

/-- The onmessage audio branch (src/App.tsx lines 216 to 226): schedule the
chunk, advance the cursor, add the source node to the live set. -/
def onAudioChunk (st : AppRefs) (deviceTime dur : ℚ) (srcId : Nat) : AppRefs :=
  { st with
      nextStartTime := chunkStart st deviceTime + dur
      sources := srcId :: st.sources }

/-- The `onended` callback (src/App.tsx line 226): remove the source node
from the live set. -/
def onSourceEnded (st : AppRefs) (srcId : Nat) : AppRefs :=
  { st with sources := st.sources.erase srcId }

/-- The refs after: start, onopen, one scheduled chunk of duration 10 ending
the first session with cursor 10, stop, then a second start. -/
def twoSessionTrace : AppRefs :=
  toggleLiveReporting (toggleLiveReporting (onAudioChunk (onopenCb
    (toggleLiveReporting initialRefs)) 0 10 1))

/-! ## Strategic insight fallback, from src/unnamed/part_001 lines 43 to 53.

`analyzeEducationData` ends with `try return JSON.parse(response.text ||
braces) catch return fallback`. The parsed value is cast, never validated.
JSValue models an arbitrary parsed JSON value; the parse function is a
parameter standing for the JSON.parse builtin, which returns some value or
throws. -/

inductive JSValue where
  | str : String → JSValue
  | num : Nat → JSValue
  | arr : List JSValue → JSValue
  | obj : List (String × JSValue) → JSValue

/-- The fixed fallback insight (src/unnamed/part_001 lines 47 to 51). -/
def fallbackInsight : JSValue :=
  JSValue.obj
    [("summary", JSValue.str "Strategic analysis unavailable at this moment."),
      ("priorities", JSValue.arr [JSValue.str "Manual review required"]),
      ("suggestedResources", JSValue.arr [JSValue.str "General Support"])]

/-- `response.text || br-open br-close` (src/unnamed/part_001 line 44): a
missing or empty text field is replaced by the two-character empty-object
string before parsing. -/
def effectiveText (t : Option String) : String :=
  match t with
  | none => "\x7b\x7d"
  | some s => if s = "" then "\x7b\x7d" else s

/-- The response handling of `analyzeEducationData` (src/unnamed/part_001
lines 43 to 53): return the parsed value as-is, or the fallback when the
parse throws. -/
def analyzeInsightResult (parse : String → Option JSValue) (t : Option String) : JSValue :=
  match parse (effectiveText t) with
  | some v => v
  | none => fallbackInsight

def digitsVal (l : List Char) : Nat :=
  l.foldl (fun acc c => acc * 10 + (c.toNat - 48)) 0

/-- Modelled from the spec: the JSON.parse builtin is external to the
repository; this partial model covers the fragment the theorems evaluate it
on, namely the two-character empty-object string (valid JSON, parses to an
empty object), unsigned decimal literals (valid JSON numbers), and the
rejection of any other text, on all of which it agrees with ECMA-404. -/
def miniJsonParse (s : String) : Option JSValue :=
  if s = "\x7b\x7d" then some (JSValue.obj [])
  else if s ≠ "" ∧ s.toList.all Char.isDigit then some (JSValue.num (digitsVal s.toList))
  else none

/-! ## Transcript log, from src/App.tsx lines 86 and 190 to 235. -/

inductive Role where
  | user : Role
  | ai : Role
  | system : Role

structure TranscriptEntry where
  role : Role
  text : String

/-- One inbound live-server message as the onmessage handler reads it: an
optional inline audio payload and the two optional transcription objects,
each with an optional text field. -/
structure ServerContent where
  audioData : Option (List Char)
  outputTranscription : Option (Option String)
  inputTranscription : Option (Option String)

/-- The entries one message contributes: an ai entry when
`serverContent.outputTranscription` is present, then a user entry when
`serverContent.inputTranscription` is present (src/App.tsx lines 230 to
235). -/
def transcriptEventEntries (m : ServerContent) : List TranscriptEntry :=
  (match m.outputTranscription with
    | some t => [⟨Role.ai, t.getD ""⟩]
    | none => []) ++
  (match m.inputTranscription with
    | some t => [⟨Role.user, t.getD ""⟩]
    | none => [])

/-- The transcript effect of one onmessage call (src/App.tsx lines 230 to
235): two sequential conditional functional appends. -/
def onMessageTranscript (m : ServerContent) (log : List TranscriptEntry) :
    List TranscriptEntry :=
  let log1 :=
    match m.outputTranscription with
    | some t => log ++ [⟨Role.ai, t.getD ""⟩]
    | none => log
  match m.inputTranscription with
  | some t => log1 ++ [⟨Role.user, t.getD ""⟩]
  | none => log1

/-- The transcript after an arbitrary interleaving of inbound messages. -/
def processMessages (ms : List ServerContent) (log : List TranscriptEntry) :
    List TranscriptEntry :=
  ms.foldl (fun acc m => onMessageTranscript m acc) log

/-- The `onopen` callback transcript effect (src/App.tsx line 192):
`setLiveTranscript` with a fresh one-element array, ignoring the previous
log. -/
def onopenTranscript (_prev : List TranscriptEntry) : List TranscriptEntry :=
  [⟨Role.system, "Assistant connected. Describe the school situation."⟩]

/-! ## Capture framer, from src/App.tsx lines 195 to 211.

Each `onaudioprocess` callback reads one input block, converts it to an
Int16Array of the same length, wraps the bytes in one payload and issues one
`sendRealtimeInput` call. -/

structure PCMPayload where
  data : List Char
  mimeType : String

/-- The Int16Array built from one capture block (src/App.tsx lines 200 to
201). -/
def audioFrameInt16 (inputData : List ℚ) : List ℤ :=
  inputData.map sampleToPCM16

/-- The list of sends one `onaudioprocess` callback issues (src/App.tsx
lines 196 to 208): exactly one payload, base64 PCM16 data with the fixed
MIME type. -/
def onAudioProcessSends (inputData : List ℚ) : List PCMPayload :=
  [⟨encode (int16LEBytes (audioFrameInt16 inputData)), "audio/pcm;rate=16000"⟩]

/-! ## Helper lemmas. -/

theorem b64Index_b64Char : ∀ n, n < 64 → b64Index (b64Char n) = n := by decide

theorem b64Char_ne_pad : ∀ n, n < 64 → b64Char n ≠ '=' := by decide

theorem map_range_getD (f : ℤ → ℚ) :
    ∀ l : List ℤ, (List.range l.length).map (fun i => f (l.getD i 0)) = l.map f := by
  intro l
  induction l with
  | nil => rfl
  | cons x xs ih =>
    have hlen : (x :: xs).length = xs.length + 1 := rfl
    rw [hlen, List.range_succ_eq_map, List.map_cons, List.map_map]
    have hcomp : ((fun i => f ((x :: xs).getD i 0)) ∘ Nat.succ) = (fun i => f (xs.getD i 0)) := rfl
    rw [hcomp, ih]
    rfl

/-- `decodeAudioData` with one channel returns one channel holding every
sample divided by 32768. -/
theorem decodeAudioData_one (data : List Nat) :
    decodeAudioData data 1
      = [(bytesToInt16 data).map (fun v : ℤ => (v : ℚ) / 32768)] := by
  unfold decodeAudioData
  have r1 : List.range 1 = [0] := rfl
  rw [r1, List.map_cons, List.map_nil]
  congr 1
  rw [← map_range_getD (fun v : ℤ => (v : ℚ) / 32768) (bytesToInt16 data)]
  simp only [Nat.div_one, Nat.mul_one, Nat.add_zero]

/-- Serialising in-range 16 bit values to little endian bytes and
reinterpreting the bytes recovers the values. -/
theorem int16LEBytes_roundtrip :
    ∀ l : List ℤ, (∀ v ∈ l, -32768 ≤ v ∧ v < 32768) → bytesToInt16 (int16LEBytes l) = l := by
  intro l
  induction l with
  | nil => intro _; rfl
  | cons v rest ih =>
    intro h
    have hv : -32768 ≤ v ∧ v < 32768 := h v (by simp)
    have hrest := ih (fun x hx => h x (by simp [hx]))
    simp only [int16LEBytes, bytesToInt16, hrest]
    congr 1
    have hu : (v % 65536).toNat < 65536 := by omega
    by_cases hcase : 32768 ≤ (v % 65536).toNat % 256 + 256 * ((v % 65536).toNat / 256)
    · rw [if_pos hcase]
      omega
    · rw [if_neg hcase]
      omega

theorem ratTrunc_bounds (x : ℚ) (h1 : -1 ≤ x) (h2 : x < 1) :
    -32768 ≤ ratTrunc (x * 32768) ∧ ratTrunc (x * 32768) < 32768 := by
  unfold ratTrunc
  by_cases h0 : 0 ≤ x * 32768
  · rw [if_pos h0]
    constructor
    · have := Int.floor_nonneg.mpr h0
      omega
    · exact Int.floor_lt.mpr (by push_cast; linarith)
  · rw [if_neg h0]
    push_neg at h0
    constructor
    · have : (-32769 : ℤ) < ⌈x * 32768⌉ := Int.lt_ceil.mpr (by push_cast; linarith)
      omega
    · have : ⌈x * 32768⌉ ≤ 0 := Int.ceil_le.mpr (by push_cast; linarith)
      omega

/-- For samples strictly inside the unit range the ToInt16 wrap is the
identity on the truncated value, which lies in the signed 16 bit range. -/
theorem sampleToPCM16_of_inrange (x : ℚ) (h1 : -1 ≤ x) (h2 : x < 1) :
    sampleToPCM16 x = ratTrunc (x * 32768)
      ∧ -32768 ≤ sampleToPCM16 x ∧ sampleToPCM16 x < 32768 := by
  obtain ⟨hlo, hhi⟩ := ratTrunc_bounds x h1 h2
  have heq : sampleToPCM16 x = ratTrunc (x * 32768) := by
    unfold sampleToPCM16 toInt16
    by_cases hcase : 32768 ≤ ratTrunc (x * 32768) % 65536
    · rw [if_pos hcase]
      omega
    · rw [if_neg hcase]
      omega
  exact ⟨heq, heq ▸ hlo, heq ▸ hhi⟩

theorem ratTrunc_err (q : ℚ) : |((ratTrunc q : ℤ) : ℚ) - q| ≤ 1 := by
  unfold ratTrunc
  by_cases h0 : 0 ≤ q
  · rw [if_pos h0, abs_le]
    have ha : ((⌊q⌋ : ℤ) : ℚ) ≤ q := Int.floor_le _
    have hb : q < ((⌊q⌋ : ℤ) : ℚ) + 1 := Int.lt_floor_add_one _
    constructor <;> linarith
  · rw [if_neg h0, abs_le]
    have ha : q ≤ ((⌈q⌉ : ℤ) : ℚ) := Int.le_ceil _
    have hb : ((⌈q⌉ : ℤ) : ℚ) < q + 1 := Int.ceil_lt_add_one _
    constructor <;> linarith

theorem sample_roundtrip_err (x : ℚ) (h1 : -1 ≤ x) (h2 : x < 1) :
    |((sampleToPCM16 x : ℤ) : ℚ) / 32768 - x| ≤ 1 / 32768 := by
  obtain ⟨heq, _, _⟩ := sampleToPCM16_of_inrange x h1 h2
  rw [heq]
  have herr := ratTrunc_err (x * 32768)
  rw [abs_le] at herr ⊢
  obtain ⟨ha, hb⟩ := herr
  refine ⟨by linarith, by linarith⟩

theorem ratTrunc_32768 : ratTrunc 32768 = 32768 := by
  unfold ratTrunc
  rw [if_pos (by norm_num), Int.floor_eq_iff]
  constructor <;> norm_num

/-- The capture conversion wraps the out-of-range sample 1.0 to -32768. -/
theorem sampleToPCM16_one : sampleToPCM16 1 = -32768 := by
  unfold sampleToPCM16 toInt16
  rw [show ((1 : ℚ) * 32768) = 32768 by norm_num, ratTrunc_32768]
  rw [if_pos (by decide)]
  decide

theorem pcm_fail_eval :
    (decodeAudioData (samplesToPCM16 [(1 : ℚ)]) 1).getD 0 [] = [(-1 : ℚ)] := by
  have h1 : samplesToPCM16 [(1 : ℚ)] = [0, 128] := by
    unfold samplesToPCM16
    rw [List.map_cons, List.map_nil, sampleToPCM16_one]
    decide
  rw [h1, decodeAudioData_one]
  have h2 : bytesToInt16 [0, 128] = [-32768] := by decide
  rw [List.getD_cons_zero, h2, List.map_cons, List.map_nil]
  norm_num

theorem ratTrunc_tenthreequarters : ratTrunc (43 / 4) = 10 := by
  unfold ratTrunc
  rw [if_pos (by norm_num), Int.floor_eq_iff]
  constructor <;> norm_num

theorem sampleToPCM16_roundfail : sampleToPCM16 (43 / 131072) = 10 := by
  unfold sampleToPCM16 toInt16
  rw [show ((43 / 131072 : ℚ) * 32768) = 43 / 4 by norm_num, ratTrunc_tenthreequarters]
  rw [if_neg (by decide)]
  decide

theorem round_tenthreequarters : round ((43 / 131072 : ℚ) * 32768) = 11 := by
  rw [show ((43 / 131072 : ℚ) * 32768) = 43 / 4 by norm_num]
  rw [round_eq, Int.floor_eq_iff]
  constructor <;> norm_num

theorem pcm_pointwise (s : List ℚ) (h : ∀ x ∈ s, -1 ≤ x ∧ x < 1) :
    List.Forall₂ (fun a b => |b - a| ≤ 1 / 32768) s
      (s.map (fun x => ((sampleToPCM16 x : ℤ) : ℚ) / 32768)) := by
  induction s with
  | nil => exact List.Forall₂.nil
  | cons x xs ih =>
    refine List.Forall₂.cons ?_ (ih (fun y hy => h y (by simp [hy])))
    have hx := h x (by simp)
    exact sample_roundtrip_err x hx.1 hx.2

theorem schedule_head_start (c : ℚ) (chunks : List Chunk) :
    ∀ p ∈ (schedule c chunks).head?, c ≤ p.1 := by
  cases chunks with
  | nil => intro p hp; simp [schedule] at hp
  | cons ch rest =>
    intro p hp
    simp only [schedule, List.head?_cons, Option.mem_def, Option.some.injEq] at hp
    rw [← hp]
    exact le_max_left _ _

theorem schedule_forall2 (c : ℚ) (chunks : List Chunk) :
    List.Forall₂ (fun ch p => ch.time ≤ p.1 ∧ p.2 = p.1 + ch.dur) chunks (schedule c chunks) := by
  induction chunks generalizing c with
  | nil => exact List.Forall₂.nil
  | cons ch rest ih =>
    exact List.Forall₂.cons ⟨le_max_right _ _, rfl⟩ (ih _)

theorem schedule_gapless (c : ℚ) (chunks : List Chunk) :
    List.Chain' (fun p q : ℚ × ℚ => p.2 ≤ q.1) (schedule c chunks) := by
  induction chunks generalizing c with
  | nil => exact List.chain'_nil
  | cons ch rest ih =>
    rw [schedule, List.chain'_cons']
    exact ⟨fun q hq => schedule_head_start _ _ q hq, ih _⟩

theorem schedule_cursor_mono (c : ℚ) (chunks : List Chunk) (h : ∀ ch ∈ chunks, 0 ≤ ch.dur) :
    List.Chain' (· ≤ ·) (c :: (schedule c chunks).map Prod.snd) := by
  induction chunks generalizing c with
  | nil => exact List.chain'_singleton _
  | cons ch rest ih =>
    rw [schedule, List.map_cons, List.chain'_cons]
    constructor
    · show c ≤ max c ch.time + ch.dur
      have h1 : c ≤ max c ch.time := le_max_left _ _
      have h2 : 0 ≤ ch.dur := h ch (by simp)
      linarith
    · exact ih _ (fun x hx => h x (by simp [hx]))

/-- One onmessage call appends its entries at the end of the log. -/
theorem onMessage_append (m : ServerContent) (log : List TranscriptEntry) :
    onMessageTranscript m log = log ++ transcriptEventEntries m := by
  unfold onMessageTranscript transcriptEventEntries
  cases m.outputTranscription with
  | none =>
    cases m.inputTranscription with
    | none => simp
    | some t => simp
  | some t =>
    cases m.inputTranscription with
    | none => simp
    | some t2 => simp

theorem processMessages_suffix (ms : List ServerContent) (log : List TranscriptEntry) :
    ∃ rest, processMessages ms log = log ++ rest := by
  induction ms generalizing log with
  | nil => exact ⟨[], by simp [processMessages]⟩
  | cons m ms ih =>
    have step : processMessages (m :: ms) log
        = processMessages ms (log ++ transcriptEventEntries m) := by
      unfold processMessages
      rw [List.foldl_cons, onMessage_append]
    obtain ⟨rest, hrest⟩ := ih (log ++ transcriptEventEntries m)
    exact ⟨transcriptEventEntries m ++ rest, by rw [step, hrest, List.append_assoc]⟩

theorem int16LEBytes_length : ∀ l : List ℤ, (int16LEBytes l).length = 2 * l.length := by
  intro l
  induction l with
  | nil => rfl
  | cons v rest ih =>
    simp only [int16LEBytes, List.length_cons, ih]
    omega

/-! ## Claims. -/

/-- C1: on each decoded chunk the scheduler assigns start time
max(cursor, device time) and advances the cursor to start plus duration;
hence every start is at or after that chunk's device time, consecutive starts
satisfy start of the next at or after end of the previous, and the cursor
history is monotonically non-decreasing (durations of decoded buffers are
nonnegative). -/
theorem claim_playback_scheduling (c0 : ℚ) (chunks : List Chunk)
    (h : ∀ ch ∈ chunks, 0 ≤ ch.dur) :
    (∀ c (ch : Chunk) rest, schedule c (ch :: rest)
        = (max c ch.time, max c ch.time + ch.dur) :: schedule (max c ch.time + ch.dur) rest)
      ∧ List.Forall₂ (fun ch p => ch.time ≤ p.1 ∧ p.2 = p.1 + ch.dur) chunks
          (schedule c0 chunks)
      ∧ List.Chain' (fun p q : ℚ × ℚ => p.2 ≤ q.1) (schedule c0 chunks)
      ∧ List.Chain' (· ≤ ·) (c0 :: (schedule c0 chunks).map Prod.snd) :=
  ⟨fun _ _ _ => rfl, schedule_forall2 _ _, schedule_gapless _ _, schedule_cursor_mono _ _ h⟩

/-- Witness for C1 at the spec scenario durations 0.5, 0.3, 0.7. -/
theorem claim_playback_scheduling_witness :
    (∀ ch ∈ demoChunks, 0 ≤ ch.dur)
      ∧ List.Chain' (fun p q : ℚ × ℚ => p.2 ≤ q.1) (schedule 0 demoChunks)
      ∧ List.Chain' (· ≤ ·) ((0 : ℚ) :: (schedule 0 demoChunks).map Prod.snd) := by
  have h : ∀ ch ∈ demoChunks, 0 ≤ ch.dur := by
    intro ch hch
    fin_cases hch <;> norm_num
  exact ⟨h, (claim_playback_scheduling 0 demoChunks h).2.2.1,
    (claim_playback_scheduling 0 demoChunks h).2.2.2⟩

/-- C2: decoding the encoding of any byte sequence returns exactly the
original bytes. -/
theorem claim_base64_roundtrip : ∀ l : List Nat, (∀ x ∈ l, x < 256) → decode (encode l) = l := by
  intro l
  induction l using chunk3Ind with
  | nil => intro _; rfl
  | one a =>
    intro h
    have ha : a < 256 := h a (by simp)
    simp only [encode, decode]
    rw [if_pos trivial]
    rw [b64Index_b64Char _ (by omega), b64Index_b64Char _ (by omega)]
    have : a / 4 * 4 + a % 4 * 16 / 16 = a := by omega
    rw [this]
  | two a b =>
    intro h
    have ha : a < 256 := h a (by simp)
    have hb : b < 256 := h b (by simp)
    simp only [encode, decode]
    rw [if_neg (b64Char_ne_pad _ (by omega)), if_pos trivial]
    rw [b64Index_b64Char _ (by omega), b64Index_b64Char _ (by omega),
      b64Index_b64Char _ (by omega)]
    have e0 : a / 4 * 4 + (a % 4 * 16 + b / 16) / 16 = a := by omega
    have e1 : (a % 4 * 16 + b / 16) % 16 * 16 + b % 16 * 4 / 4 = b := by omega
    rw [e0, e1]
  | grp a b c rest ih =>
    intro h
    have ha : a < 256 := h a (by simp)
    have hb : b < 256 := h b (by simp)
    have hc : c < 256 := h c (by simp)
    have hrest : decode (encode rest) = rest :=
      ih (fun x hx => h x (by simp [hx]))
    simp only [encode, decode]
    rw [if_neg (b64Char_ne_pad _ (by omega)), if_neg (b64Char_ne_pad _ (by omega))]
    rw [b64Index_b64Char _ (by omega), b64Index_b64Char _ (by omega),
      b64Index_b64Char _ (by omega), b64Index_b64Char _ (by omega), hrest]
    have e0 : a / 4 * 4 + (a % 4 * 16 + b / 16) / 16 = a := by omega
    have e1 : (a % 4 * 16 + b / 16) % 16 * 16 + (b % 16 * 4 + c / 64) / 4 = b := by omega
    have e2 : (b % 16 * 4 + c / 64) % 4 * 64 + c % 64 = c := by omega
    rw [e0, e1, e2]

/-- Witness for C2 on a five byte input, covering the one-byte padded tail
group. -/
theorem claim_base64_roundtrip_witness :
    (∀ x ∈ [72, 101, 108, 108, 255], x < 256)
      ∧ decode (encode [72, 101, 108, 108, 255]) = [72, 101, 108, 108, 255] :=
  ⟨by decide, claim_base64_roundtrip [72, 101, 108, 108, 255] (by decide)⟩

/-- C3 counterexample: the sample 1.0 lies in the closed interval the claim
quantifies over, yet the capture conversion wraps it to -32768, so the
recovered sample is -1.0, off by 2, far beyond the 1/32768 tolerance. -/
theorem claim_pcm_roundtrip_counterexample :
    ((-1 : ℚ) ≤ 1 ∧ (1 : ℚ) ≤ 1)
      ∧ (decodeAudioData (samplesToPCM16 [(1 : ℚ)]) 1).getD 0 [] = [(-1 : ℚ)]
      ∧ 1 / 32768 < |(-1 : ℚ) - 1| := by
  refine ⟨⟨by norm_num, le_refl 1⟩, pcm_fail_eval, ?_⟩
  rw [show ((-1 : ℚ) - 1) = -2 by norm_num, abs_neg, abs_two]
  norm_num

/-- C3 amended: for samples in the half-open interval from -1.0 inclusive to
1.0 exclusive, converting to PCM16 bytes and back through decodeAudioData
with one channel recovers each sample within 1/32768; the right endpoint 1.0
itself wraps and is excluded. -/
theorem claim_pcm_roundtrip (s : List ℚ) (h : ∀ x ∈ s, -1 ≤ x ∧ x < 1) :
    List.Forall₂ (fun a b => |b - a| ≤ 1 / 32768) s
      ((decodeAudioData (samplesToPCM16 s) 1).getD 0 []) := by
  rw [decodeAudioData_one, List.getD_cons_zero]
  unfold samplesToPCM16
  rw [int16LEBytes_roundtrip (s.map sampleToPCM16)
    (by
      intro v hv
      obtain ⟨x, hx, rfl⟩ := List.mem_map.mp hv
      exact (sampleToPCM16_of_inrange x (h x hx).1 (h x hx).2).2)]
  rw [List.map_map]
  exact pcm_pointwise s h

/-- Witness for the amended C3 on the samples -1, 0 and 1/2. -/
theorem claim_pcm_roundtrip_witness :
    (∀ x ∈ [(-1 : ℚ), 0, 1 / 2], -1 ≤ x ∧ x < 1)
      ∧ List.Forall₂ (fun a b => |b - a| ≤ 1 / 32768) [(-1 : ℚ), 0, 1 / 2]
          ((decodeAudioData (samplesToPCM16 [(-1 : ℚ), 0, 1 / 2]) 1).getD 0 []) := by
  have h : ∀ x ∈ [(-1 : ℚ), 0, 1 / 2], -1 ≤ x ∧ x < 1 := by
    intro x hx
    fin_cases hx <;> norm_num
  exact ⟨h, claim_pcm_roundtrip [(-1 : ℚ), 0, 1 / 2] h⟩

/-- C4 counterexample: at the in-range sample 43/131072 (a binary float,
times 32768 equal to 10.75) the code stores 10, the truncated value, while
round of 10.75 is 11. -/
theorem claim_pcm16_round_counterexample :
    ((-1 : ℚ) ≤ 43 / 131072 ∧ (43 / 131072 : ℚ) ≤ 1)
      ∧ sampleToPCM16 (43 / 131072) = 10
      ∧ round ((43 / 131072 : ℚ) * 32768) = 11
      ∧ (10 : ℤ) ≠ 11 :=
  ⟨⟨by norm_num, by norm_num⟩, sampleToPCM16_roundfail, round_tenthreequarters, by decide⟩

/-- C4 amended: each float sample maps to the two's-complement 16 bit
wraparound of the truncation toward zero of the sample times 32768 (the
ECMAScript ToInt16 conversion), with no clamping; the result always lies in
the signed 16 bit range, and the out-of-range sample 1.0 wraps to -32768
rather than saturating. -/
theorem claim_pcm16_trunc_wrap :
    (∀ s : ℚ, sampleToPCM16 s = (ratTrunc (s * 32768) + 32768) % 65536 - 32768)
      ∧ (∀ s : ℚ, -32768 ≤ sampleToPCM16 s ∧ sampleToPCM16 s ≤ 32767)
      ∧ sampleToPCM16 1 = -32768 := by
  refine ⟨?_, ?_, sampleToPCM16_one⟩
  · intro s
    unfold sampleToPCM16 toInt16
    by_cases hcase : 32768 ≤ ratTrunc (s * 32768) % 65536
    · rw [if_pos hcase]
      omega
    · rw [if_neg hcase]
      omega
  · intro s
    unfold sampleToPCM16 toInt16
    by_cases hcase : 32768 ≤ ratTrunc (s * 32768) % 65536
    · rw [if_pos hcase]
      omega
    · rw [if_neg hcase]
      omega

/-- C5: a capture callback with exactly 4096 samples produces one frame of
4096 PCM16 samples, 8192 bytes, and issues exactly one send whose payload is
the base64 encoding of those bytes with the fixed PCM MIME type. -/
theorem claim_frame_size_invariant (inputData : List ℚ) (h : inputData.length = 4096) :
    (onAudioProcessSends inputData).length = 1
      ∧ (audioFrameInt16 inputData).length = 4096
      ∧ (int16LEBytes (audioFrameInt16 inputData)).length = 8192
      ∧ onAudioProcessSends inputData
          = [⟨encode (int16LEBytes (audioFrameInt16 inputData)), "audio/pcm;rate=16000"⟩] := by
  refine ⟨rfl, ?_, ?_, rfl⟩
  · simp [audioFrameInt16, h]
  · rw [int16LEBytes_length]
    simp [audioFrameInt16, h]

/-- Witness for C5 on a silent 4096 sample block. -/
theorem claim_frame_size_invariant_witness :
    (List.replicate 4096 (0 : ℚ)).length = 4096
      ∧ (onAudioProcessSends (List.replicate 4096 (0 : ℚ))).length = 1
      ∧ (audioFrameInt16 (List.replicate 4096 (0 : ℚ))).length = 4096
      ∧ (int16LEBytes (audioFrameInt16 (List.replicate 4096 (0 : ℚ)))).length = 8192 := by
  have h : (List.replicate 4096 (0 : ℚ)).length = 4096 := List.length_replicate 4096 0
  obtain ⟨a, b, c, _⟩ := claim_frame_size_invariant (List.replicate 4096 (0 : ℚ)) h
  exact ⟨h, a, b, c⟩

/-- C6 counterexample: after one start request the state is still Connecting
(the flag only flips in onopen), the start button is still rendered, and a
second start request issues a second connect call and allocates a second pair
of device contexts. -/
theorem claim_session_singleton_counterexample :
    (toggleLiveReporting initialRefs).isLiveActive = false
      ∧ (toggleLiveReporting initialRefs).sessionsCreated = 1
      ∧ (toggleLiveReporting (toggleLiveReporting initialRefs)).sessionsCreated = 2
      ∧ (toggleLiveReporting (toggleLiveReporting initialRefs)).inCtxAllocs = 2
      ∧ (toggleLiveReporting (toggleLiveReporting initialRefs)).outCtxAllocs = 2 :=
  ⟨rfl, rfl, rfl, rfl, rfl⟩

/-- C6 amended: only the Open state is guarded: once onopen has fired the
floating button is replaced and a further toggle takes the stop branch,
creating no second session and no new device contexts; while Connecting the
guard does not hold. -/
theorem claim_session_singleton_open (st : AppRefs) (h : st.isLiveActive = true) :
    (toggleLiveReporting st).sessionsCreated = st.sessionsCreated
      ∧ (toggleLiveReporting st).inCtxAllocs = st.inCtxAllocs
      ∧ (toggleLiveReporting st).outCtxAllocs = st.outCtxAllocs
      ∧ (toggleLiveReporting st).isLiveActive = false := by
  have hstep : toggleLiveReporting st = { st with isLiveActive := false } := by
    unfold toggleLiveReporting
    rw [h]
  rw [hstep]
  exact ⟨rfl, rfl, rfl, rfl⟩

/-- Witness for the amended C6 at a concrete Open state. -/
theorem claim_session_singleton_open_witness :
    (AppRefs.mk true 0 [] 1 1 1).isLiveActive = true
      ∧ (toggleLiveReporting (AppRefs.mk true 0 [] 1 1 1)).sessionsCreated = 1
      ∧ (toggleLiveReporting (AppRefs.mk true 0 [] 1 1 1)).inCtxAllocs = 1
      ∧ (toggleLiveReporting (AppRefs.mk true 0 [] 1 1 1)).isLiveActive = false := by
  have h := claim_session_singleton_open (AppRefs.mk true 0 [] 1 1 1) rfl
  exact ⟨rfl, h.1, h.2.1, h.2.2.2⟩

/-- C7 counterexample: a response whose text field is missing is malformed,
yet the code substitutes the empty-object string, parses it successfully and
returns the empty object, not the fixed fallback. -/
theorem claim_insight_fallback_counterexample :
    analyzeInsightResult miniJsonParse none = JSValue.obj []
      ∧ analyzeInsightResult miniJsonParse none ≠ fallbackInsight := by
  constructor
  · rfl
  · intro hcon
    have hobj : JSValue.obj [] = fallbackInsight := hcon ▸ rfl
    simp only [fallbackInsight, JSValue.obj.injEq] at hobj
    exact (List.cons_ne_nil _ _) hobj.symm

/-- C7 amended: the fixed fallback is returned exactly when JSON.parse throws
on the effective text; any successfully parsed value, whatever its shape, is
returned as-is without validation, and in both cases the function returns
normally. -/
theorem claim_insight_fallback (parse : String → Option JSValue) (t : Option String) :
    (parse (effectiveText t) = none → analyzeInsightResult parse t = fallbackInsight)
      ∧ (∀ v, parse (effectiveText t) = some v → analyzeInsightResult parse t = v) := by
  constructor
  · intro h
    unfold analyzeInsightResult
    rw [h]
  · intro v h
    unfold analyzeInsightResult
    rw [h]

/-- Witness for the amended C7: unparseable text yields exactly the
fallback. -/
theorem claim_insight_fallback_witness :
    miniJsonParse (effectiveText (some "not json")) = none
      ∧ analyzeInsightResult miniJsonParse (some "not json") = fallbackInsight := by
  have h : miniJsonParse (effectiveText (some "not json")) = none := by rfl
  exact ⟨h, (claim_insight_fallback miniJsonParse (some "not json")).1 h⟩

/-- C8: over any interleaving of inbound messages the transcript grows only
at the end: the old log is preserved verbatim as a prefix and the length is
non-decreasing; each output-transcription event appends an ai entry and each
input-transcription event appends a user entry, the role fixed solely by the
event type. -/
theorem claim_transcript_append_only :
    (∀ ms log, (processMessages ms log).take log.length = log)
      ∧ (∀ ms log, log.length ≤ (processMessages ms log).length)
      ∧ (∀ (m : ServerContent) tOut log, m.outputTranscription = some tOut →
          m.inputTranscription = none →
          onMessageTranscript m log = log ++ [⟨Role.ai, tOut.getD ""⟩])
      ∧ (∀ (m : ServerContent) tIn log, m.inputTranscription = some tIn →
          m.outputTranscription = none →
          onMessageTranscript m log = log ++ [⟨Role.user, tIn.getD ""⟩])
      ∧ (∀ (m : ServerContent) tOut tIn log, m.outputTranscription = some tOut →
          m.inputTranscription = some tIn →
          onMessageTranscript m log
            = log ++ [⟨Role.ai, tOut.getD ""⟩, ⟨Role.user, tIn.getD ""⟩]) := by
  refine ⟨?_, ?_, ?_, ?_, ?_⟩
  · intro ms log
    obtain ⟨rest, hrest⟩ := processMessages_suffix ms log
    rw [hrest, List.take_left]
  · intro ms log
    obtain ⟨rest, hrest⟩ := processMessages_suffix ms log
    rw [hrest, List.length_append]
    omega
  · intro m tOut log hOut hIn
    unfold onMessageTranscript
    rw [hOut, hIn]
  · intro m tIn log hIn hOut
    unfold onMessageTranscript
    rw [hOut, hIn]
  · intro m tOut tIn log hOut hIn
    unfold onMessageTranscript
    rw [hOut, hIn]
    show (log ++ [⟨Role.ai, tOut.getD ""⟩]) ++ [⟨Role.user, tIn.getD ""⟩]
      = log ++ [⟨Role.ai, tOut.getD ""⟩, ⟨Role.user, tIn.getD ""⟩]
    rw [List.append_assoc]
    rfl

/-- Witness for C8: one output-transcription message appends one ai entry. -/
theorem claim_transcript_append_only_witness :
    (ServerContent.mk none (some (some "hello")) none).outputTranscription = some (some "hello")
      ∧ (ServerContent.mk none (some (some "hello")) none).inputTranscription = none
      ∧ onMessageTranscript (ServerContent.mk none (some (some "hello")) none) []
          = [] ++ [⟨Role.ai, (some "hello").getD ""⟩] :=
  ⟨rfl, rfl,
    claim_transcript_append_only.2.2.1 (ServerContent.mk none (some (some "hello")) none)
      (some "hello") [] rfl rfl⟩

/-- C9 counterexample: the cursor and the pending-source set live in
component refs that survive session teardown; after a first session ends with
cursor 10 and one still-pending source, a freshly started second session
begins with cursor 10 and the stale source, and schedules its first chunk at
10 instead of at the current device time 0. -/
theorem claim_scheduler_reset_counterexample :
    initialRefs.nextStartTime = 0
      ∧ twoSessionTrace.nextStartTime = 10
      ∧ chunkStart twoSessionTrace 0 = 10
      ∧ (1 : Nat) ∈ twoSessionTrace.sources := by
  refine ⟨rfl, ?_, ?_, ?_⟩
  · show (max 0 0 + 10 : ℚ) = 10
    norm_num
  · show (max (max 0 0 + 10) 0 : ℚ) = 10
    norm_num
  · show 1 ∈ [1]
    simp

/-- C9 amended: the playback cursor and live source set are component scoped,
not session scoped: neither the stop branch, nor the start branch, nor onopen
resets them, so a new session inherits the previous cursor value and any
sources whose onended callback has not fired. -/
theorem claim_refs_persist (st : AppRefs) :
    (toggleLiveReporting st).nextStartTime = st.nextStartTime
      ∧ (toggleLiveReporting st).sources = st.sources
      ∧ (onopenCb st).nextStartTime = st.nextStartTime
      ∧ (onopenCb st).sources = st.sources := by
  unfold toggleLiveReporting onopenCb
  cases st.isLiveActive <;> exact ⟨rfl, rfl, rfl, rfl⟩

/-- C10: the onopen callback replaces the transcript wholesale with a single
system entry announcing the connection; any previous entries are discarded,
not appended to. -/
theorem claim_onopen_resets_transcript :
    (∀ prev, onopenTranscript prev
        = [⟨Role.system, "Assistant connected. Describe the school situation."⟩])
      ∧ (∀ e prev, onopenTranscript (e :: prev)
          ≠ (e :: prev)
            ++ [⟨Role.system, "Assistant connected. Describe the school situation."⟩]) := by
  constructor
  · intro _prev
    rfl
  · intro e prev hcon
    have hlen := congrArg List.length hcon
    simp only [onopenTranscript, List.length_append, List.length_cons,
      List.length_singleton] at hlen
    omega

end Uni
